import Mathlib

/-!
Verification of the rotation core of the `cgmath-rs` repository
(`src/cgmath/rotation.rs`) and the HSV→RGB conversion (`src/color/hsv.rs`).

The source is generic over a floating-point scalar `S: Float`; we embed the
scalar as `ℚ` (exact arithmetic), so the spec's "approximately equals" becomes
exact equality in this development.  The dense-matrix / quaternion / vector /
point libraries the rotation core consumes (`Mat2`, `Mat3`, `Quat`, `Vec2`,
`Vec3`, `Point2`, `Point3`, `Ray`) are external collaborators whose code is not
part of the rotation core; their operations are modelled from the spec's
interface contracts (spec §6).  Fatal failure (Rust `fail!` / `Option::unwrap`
on `None`) is modelled by `Option`, with `none` standing for the aborted call.
-/

namespace Cgmath

/-- Modelled from the spec: a 2-component vector from the external vector
library (component access, dot product). -/
structure Vec2 where
  x : ℚ
  y : ℚ
deriving DecidableEq, Repr

/-- Modelled from the spec: a 3-component vector from the external vector
library (component access, dot product, cross product). -/
structure Vec3 where
  x : ℚ
  y : ℚ
  z : ℚ
deriving DecidableEq, Repr

namespace Vec3

/-- Modelled from the spec: dot product, consumed from the vector library. -/
def dot (a b : Vec3) : ℚ := a.x * b.x + a.y * b.y + a.z * b.z

/-- Modelled from the spec: cross product, consumed from the vector library. -/
def cross (a b : Vec3) : Vec3 :=
  ⟨a.y * b.z - a.z * b.y, a.z * b.x - a.x * b.z, a.x * b.y - a.y * b.x⟩

/-- Modelled from the spec: componentwise addition. -/
def add_v (a b : Vec3) : Vec3 := ⟨a.x + b.x, a.y + b.y, a.z + b.z⟩

/-- Modelled from the spec: scalar multiplication. -/
def mul_s (a : Vec3) (s : ℚ) : Vec3 := ⟨a.x * s, a.y * s, a.z * s⟩

end Vec3

/-- A 2D point (`Point2` of the external point library).  Modelled from the
spec: supports conversion to a vector and reconstruction from a vector. -/
structure Point2 where
  x : ℚ
  y : ℚ
deriving DecidableEq, Repr

namespace Point2

/-- Modelled from the spec: convert a point to the vector from the origin. -/
def to_vec (p : Point2) : Vec2 := ⟨p.x, p.y⟩

/-- Modelled from the spec: reconstruct a point from a vector. -/
def from_vec (v : Vec2) : Point2 := ⟨v.x, v.y⟩

end Point2

/-- A 3D point (`Point3` of the external point library). -/
structure Point3 where
  x : ℚ
  y : ℚ
  z : ℚ
deriving DecidableEq, Repr

namespace Point3

/-- Modelled from the spec: convert a point to the vector from the origin. -/
def to_vec (p : Point3) : Vec3 := ⟨p.x, p.y, p.z⟩

/-- Modelled from the spec: reconstruct a point from a vector. -/
def from_vec (v : Vec3) : Point3 := ⟨v.x, v.y, v.z⟩

end Point3

/-- A ray with a 2D origin point and direction vector (`Ray<P,V>` of the
external ray library: an origin and a direction). -/
structure Ray2 where
  origin : Point2
  direction : Vec2
deriving DecidableEq, Repr

/-- A ray with a 3D origin point and direction vector. -/
structure Ray3 where
  origin : Point3
  direction : Vec3
deriving DecidableEq, Repr

/-- Modelled from the spec: a dense column-major 2×2 matrix from the external
matrix library; `x` and `y` are the columns. -/
structure Mat2 where
  x : Vec2
  y : Vec2
deriving DecidableEq, Repr

namespace Mat2

/-- Modelled from the spec: identity construction, consumed from the matrix
library. -/
def identity : Mat2 := ⟨⟨1, 0⟩, ⟨0, 1⟩⟩

/-- Modelled from the spec: matrix–vector multiply, consumed from the matrix
library. -/
def mul_v (m : Mat2) (v : Vec2) : Vec2 :=
  ⟨m.x.x * v.x + m.y.x * v.y, m.x.y * v.x + m.y.y * v.y⟩

/-- Modelled from the spec: matrix–matrix multiply, consumed from the matrix
library. -/
def mul_m (a b : Mat2) : Mat2 := ⟨a.mul_v b.x, a.mul_v b.y⟩

/-- Modelled from the spec: the matrix library's in-place multiply
(`mul_self_m`), which self-assigns the product; as a state transformer it
returns the updated receiver. -/
def mul_self_m (a b : Mat2) : Mat2 := a.mul_m b

/-- Modelled from the spec: transpose, consumed from the matrix library. -/
def transpose (m : Mat2) : Mat2 := ⟨⟨m.x.x, m.y.x⟩, ⟨m.x.y, m.y.y⟩⟩

/-- Modelled from the spec: the determinant of the wrapped matrix. -/
def determinant (m : Mat2) : ℚ := m.x.x * m.y.y - m.y.x * m.x.y

/-- Modelled from the spec: the matrix library's fallible general inverse —
`none` on singular input (adjugate divided by the determinant otherwise). -/
def invert (m : Mat2) : Option Mat2 :=
  if m.determinant = 0 then none
  else some ⟨⟨m.y.y / m.determinant, -m.x.y / m.determinant⟩,
             ⟨-m.y.x / m.determinant, m.x.x / m.determinant⟩⟩

/-- Modelled from the spec: the matrix library's in-place inverse, which
unwraps the fallible general inverse and self-assigns it; `none` models the
fatal failure on singular input. -/
def invert_self (m : Mat2) : Option Mat2 := m.invert

end Mat2

/-- Modelled from the spec: a dense column-major 3×3 matrix from the external
matrix library; `x`, `y`, `z` are the columns. -/
structure Mat3 where
  x : Vec3
  y : Vec3
  z : Vec3
deriving DecidableEq, Repr

namespace Mat3

/-- Modelled from the spec: identity construction, consumed from the matrix
library. -/
def identity : Mat3 := ⟨⟨1, 0, 0⟩, ⟨0, 1, 0⟩, ⟨0, 0, 1⟩⟩

/-- Modelled from the spec: matrix–vector multiply, consumed from the matrix
library. -/
def mul_v (m : Mat3) (v : Vec3) : Vec3 :=
  ⟨m.x.x * v.x + m.y.x * v.y + m.z.x * v.z,
   m.x.y * v.x + m.y.y * v.y + m.z.y * v.z,
   m.x.z * v.x + m.y.z * v.y + m.z.z * v.z⟩

/-- Modelled from the spec: matrix–matrix multiply, consumed from the matrix
library. -/
def mul_m (a b : Mat3) : Mat3 := ⟨a.mul_v b.x, a.mul_v b.y, a.mul_v b.z⟩

/-- Modelled from the spec: the matrix library's in-place multiply
(`mul_self_m`), which self-assigns the product. -/
def mul_self_m (a b : Mat3) : Mat3 := a.mul_m b

/-- Modelled from the spec: transpose, consumed from the matrix library. -/
def transpose (m : Mat3) : Mat3 :=
  ⟨⟨m.x.x, m.y.x, m.z.x⟩, ⟨m.x.y, m.y.y, m.z.y⟩, ⟨m.x.z, m.y.z, m.z.z⟩⟩

/-- Modelled from the spec: the determinant of the wrapped matrix, the triple
product of the columns. -/
def determinant (m : Mat3) : ℚ := m.x.dot (m.y.cross m.z)

/-- Modelled from the spec: the matrix library's fallible general inverse —
`none` on singular input; otherwise the rows of the inverse are the cross
products of pairs of columns divided by the determinant. -/
def invert (m : Mat3) : Option Mat3 :=
  if m.determinant = 0 then none
  else some (Mat3.transpose ⟨(m.y.cross m.z).mul_s (1 / m.determinant),
                             (m.z.cross m.x).mul_s (1 / m.determinant),
                             (m.x.cross m.y).mul_s (1 / m.determinant)⟩)

/-- Modelled from the spec: the matrix library's in-place inverse, which
unwraps the fallible general inverse and self-assigns it; `none` models the
fatal failure on singular input. -/
def invert_self (m : Mat3) : Option Mat3 := m.invert

end Mat3

/-- Modelled from the spec: a quaternion from the external quaternion library,
with real part `s` and vector part `v`. -/
structure Quat where
  s : ℚ
  v : Vec3
deriving DecidableEq, Repr

namespace Quat

/-- Modelled from the spec: the identity quaternion `(1, 0, 0, 0)`
(real part one, vector part zero), consumed from the quaternion library. -/
def identity : Quat := ⟨1, ⟨0, 0, 0⟩⟩

/-- Modelled from the spec: quaternion multiplication, consumed from the
quaternion library. -/
def mul_q (a b : Quat) : Quat :=
  ⟨a.s * b.s - a.v.dot b.v, ((b.v.mul_s a.s).add_v (a.v.mul_s b.s)).add_v (a.v.cross b.v)⟩

/-- Modelled from the spec: the quaternion library's in-place multiply
(`mul_self_q`), which self-assigns the product. -/
def mul_self_q (a b : Quat) : Quat := a.mul_q b

/-- Modelled from the spec: the conjugate, consumed from the quaternion
library (negated vector part). -/
def conjugate (q : Quat) : Quat := ⟨q.s, ⟨-q.v.x, -q.v.y, -q.v.z⟩⟩

/-- Modelled from the spec: the squared magnitude, consumed from the
quaternion library. -/
def magnitude2 (q : Quat) : ℚ := q.s * q.s + q.v.dot q.v

/-- Modelled from the spec: componentwise scalar division, consumed from the
quaternion library. -/
def div_s (q : Quat) (k : ℚ) : Quat := ⟨q.s / k, ⟨q.v.x / k, q.v.y / k, q.v.z / k⟩⟩

/-- Modelled from the spec: the quaternion library's vector rotation — the
standard sandwich product `q * (0, v) * conjugate q`, returning the vector
part. -/
def mul_v (q : Quat) (vec : Vec3) : Vec3 :=
  ((q.mul_q ⟨0, vec⟩).mul_q q.conjugate).v

end Quat

/-- Modelled from the spec: the scalar type's default approximate-equality
tolerance, consumed from the scalar's `ApproxEq` instance.  Its exact value is
irrelevant to the claims; any positive tolerance works. -/
def scalar_approx_epsilon : ℚ := 1 / 1000000

namespace Mat2

/-- Modelled from the spec: approximate equality of matrices with an explicit
tolerance — every component differs by at most the tolerance. -/
def approx_eq_eps (a b : Mat2) (eps : ℚ) : Bool :=
  decide (|a.x.x - b.x.x| ≤ eps) && decide (|a.x.y - b.x.y| ≤ eps) &&
  decide (|a.y.x - b.y.x| ≤ eps) && decide (|a.y.y - b.y.y| ≤ eps)

/-- Modelled from the spec: approximate equality of matrices at the scalar's
default tolerance. -/
def approx_eq (a b : Mat2) : Bool := a.approx_eq_eps b scalar_approx_epsilon

end Mat2

namespace Mat3

/-- Modelled from the spec: approximate equality of matrices with an explicit
tolerance — every component differs by at most the tolerance. -/
def approx_eq_eps (a b : Mat3) (eps : ℚ) : Bool :=
  decide (|a.x.x - b.x.x| ≤ eps) && decide (|a.x.y - b.x.y| ≤ eps) &&
  decide (|a.x.z - b.x.z| ≤ eps) && decide (|a.y.x - b.y.x| ≤ eps) &&
  decide (|a.y.y - b.y.y| ≤ eps) && decide (|a.y.z - b.y.z| ≤ eps) &&
  decide (|a.z.x - b.z.x| ≤ eps) && decide (|a.z.y - b.z.y| ≤ eps) &&
  decide (|a.z.z - b.z.z| ≤ eps)

/-- Modelled from the spec: approximate equality of matrices at the scalar's
default tolerance. -/
def approx_eq (a b : Mat3) : Bool := a.approx_eq_eps b scalar_approx_epsilon

end Mat3

/-!
The derived default operations of the `Rotation` trait
(`src/cgmath/rotation.rs`, lines 40–63).  They are defined once, generically
over the primitive `rotate_vec`, exactly as the trait provides a single
default body for every implementor.
-/

/-- Source `Rotation::rotate_point` (2D instantiation): the trait's single derived
default — convert the point to a vector, rotate it, reconstruct a point. -/
def rotate_point2 (rotate_vec : Vec2 → Vec2) (point : Point2) : Point2 :=
  Point2.from_vec (rotate_vec point.to_vec)

/-- Source `Rotation::rotate_point` (3D instantiation): the trait's single derived
default. -/
def rotate_point3 (rotate_vec : Vec3 → Vec3) (point : Point3) : Point3 :=
  Point3.from_vec (rotate_vec point.to_vec)

/-- Source `Rotation::rotate_ray` (2D instantiation): the trait's derived default —
the origin is rebuilt componentwise (`Array::build(|i| ray.origin.i(i))`) and
the direction is rotated via `rotate_vec`. -/
def rotate_ray2 (rotate_vec : Vec2 → Vec2) (ray : Ray2) : Ray2 :=
  ⟨⟨ray.origin.x, ray.origin.y⟩, rotate_vec ray.direction⟩

/-- Source `Rotation::rotate_ray` (3D instantiation): the trait's derived default. -/
def rotate_ray3 (rotate_vec : Vec3 → Vec3) (ray : Ray3) : Ray3 :=
  ⟨⟨ray.origin.x, ray.origin.y, ray.origin.z⟩, rotate_vec ray.direction⟩

/-- Source `Basis2<S>` (`src/cgmath/rotation.rs`, line 95): a two-dimensional
rotation matrix wrapper whose matrix is guaranteed orthogonal. -/
structure Basis2 where
  mat : Mat2
deriving DecidableEq, Repr

namespace Basis2

/-- Source `Basis2::as_mat2`. -/
def as_mat2 (b : Basis2) : Mat2 := b.mat

/-- Source `ToBasis2::to_rot2` for `Basis2`: a clone. -/
def to_rot2 (b : Basis2) : Basis2 := b

/-- Source `ToMat2::to_mat2` for `Basis2`: a clone of the wrapped matrix. -/
def to_mat2 (b : Basis2) : Mat2 := b.mat

/-- Source `Rotation::identity` for `Basis2`: wraps the matrix identity. -/
def identity : Basis2 := ⟨Mat2.identity⟩

/-- Source `Rotation::rotate_vec` for `Basis2`: matrix–vector multiply. -/
def rotate_vec (b : Basis2) (vec : Vec2) : Vec2 := b.mat.mul_v vec

/-- Source `Rotation::concat` for `Basis2`: matrix–matrix multiply. -/
def concat (b other : Basis2) : Basis2 := ⟨b.mat.mul_m other.mat⟩

/-- Source `Rotation::concat_self` override for `Basis2`: mutates the wrapped matrix
in place via the matrix library's `mul_self_m`; as a state transformer it
returns the updated receiver. -/
def concat_self (b other : Basis2) : Basis2 := ⟨b.mat.mul_self_m other.mat⟩

/-- Source `Rotation::invert` for `Basis2`: `self.mat.invert().unwrap()` — the
fallible general inverse, unwrapped; `none` models the fatal unwrap of a
singular matrix. -/
def invert (b : Basis2) : Option Basis2 := (b.mat.invert).map Basis2.mk

/-- Source `Rotation::invert_self` override for `Basis2`: mutates the wrapped matrix
in place via the matrix library's `invert_self`; `none` models the fatal
failure on singular input. -/
def invert_self (b : Basis2) : Option Basis2 := (b.mat.invert_self).map Basis2.mk

/-- Source `ApproxEq::approx_epsilon` for `Basis2`: the source body is
`fail!(~"Doesn't work!")` — it unconditionally aborts and never returns a
tolerance; `none` models the abort. -/
def approx_epsilon : Option ℚ := none

/-- Source `ApproxEq::approx_eq` for `Basis2`: delegates to the wrapped matrix's
approximate equality at the scalar's default tolerance. -/
def approx_eq (b other : Basis2) : Bool := b.mat.approx_eq other.mat

/-- Source `ApproxEq::approx_eq_eps` for `Basis2`: delegates to the wrapped matrix's
approximate equality at the caller-supplied tolerance. -/
def approx_eq_eps (b other : Basis2) (eps : ℚ) : Bool :=
  b.mat.approx_eq_eps other.mat eps

end Basis2

/-- Source `Basis3<S>` (`src/cgmath/rotation.rs`, line 169): a three-dimensional
rotation matrix wrapper whose matrix is guaranteed orthogonal. -/
structure Basis3 where
  mat : Mat3
deriving DecidableEq, Repr

namespace Basis3

/-- Source `Basis3::as_mat3`. -/
def as_mat3 (b : Basis3) : Mat3 := b.mat

/-- Source `ToBasis3::to_rot3` for `Basis3`: a clone. -/
def to_rot3 (b : Basis3) : Basis3 := b

/-- Source `ToMat3::to_mat3` for `Basis3`: a clone of the wrapped matrix. -/
def to_mat3 (b : Basis3) : Mat3 := b.mat

/-- Source `Rotation::identity` for `Basis3`: wraps the matrix identity. -/
def identity : Basis3 := ⟨Mat3.identity⟩

/-- Source `Rotation::rotate_vec` for `Basis3`: matrix–vector multiply. -/
def rotate_vec (b : Basis3) (vec : Vec3) : Vec3 := b.mat.mul_v vec

/-- Source `Rotation::concat` for `Basis3`: matrix–matrix multiply. -/
def concat (b other : Basis3) : Basis3 := ⟨b.mat.mul_m other.mat⟩

/-- Source `Rotation::concat_self` override for `Basis3`: mutates the wrapped matrix
in place via the matrix library's `mul_self_m`. -/
def concat_self (b other : Basis3) : Basis3 := ⟨b.mat.mul_self_m other.mat⟩

/-- Source `Rotation::invert` for `Basis3`: `self.mat.invert().unwrap()` — the
fallible general inverse, unwrapped; `none` models the fatal unwrap of a
singular matrix. -/
def invert (b : Basis3) : Option Basis3 := (b.mat.invert).map Basis3.mk

/-- Source `Rotation::invert_self` override for `Basis3`: mutates the wrapped matrix
in place via the matrix library's `invert_self`. -/
def invert_self (b : Basis3) : Option Basis3 := (b.mat.invert_self).map Basis3.mk

/-- Source `ApproxEq::approx_epsilon` for `Basis3`: the source body is
`fail!(~"Doesn't work!")` — it unconditionally aborts and never returns a
tolerance; `none` models the abort. -/
def approx_epsilon : Option ℚ := none

/-- Source `ApproxEq::approx_eq` for `Basis3`: delegates to the wrapped matrix's
approximate equality at the scalar's default tolerance. -/
def approx_eq (b other : Basis3) : Bool := b.mat.approx_eq other.mat

/-- Source `ApproxEq::approx_eq_eps` for `Basis3`: delegates to the wrapped matrix's
approximate equality at the caller-supplied tolerance. -/
def approx_eq_eps (b other : Basis3) (eps : ℚ) : Bool :=
  b.mat.approx_eq_eps other.mat eps

end Basis3

/-!
The `Rotation` implementation for `Quat` (`src/cgmath/rotation.rs`,
lines 289–307).  `QuatRot` names the implementation to keep it apart from the
external quaternion library's own operations.
-/

namespace QuatRot

/-- Source `Rotation::identity` for `Quat`: `Quat::identity()`. -/
def identity : Quat := Quat.identity

/-- Source `Rotation::rotate_vec` for `Quat`: `self.mul_v(vec)`. -/
def rotate_vec (q : Quat) (vec : Vec3) : Vec3 := q.mul_v vec

/-- Source `Rotation::concat` for `Quat`: `self.mul_q(other)`. -/
def concat (q other : Quat) : Quat := q.mul_q other

/-- Source `Rotation::concat_self` override for `Quat`: `self.mul_self_q(other)`. -/
def concat_self (q other : Quat) : Quat := q.mul_self_q other

/-- Source `Rotation::invert` for `Quat`:
`self.conjugate().div_s(self.magnitude2())`. -/
def invert (q : Quat) : Quat := q.conjugate.div_s q.magnitude2

/-- Source `Rotation::invert_self` override for `Quat`: `*self = self.invert()`. -/
def invert_self (q : Quat) : Quat := QuatRot.invert q

end QuatRot

/-!
Observable call sequences on the matrix-backed rotations, for the
orthogonality-preservation invariant: any finite sequence of `concat`,
`concat_self`, `invert`, `invert_self` calls, with `none` propagating a fatal
matrix-inversion failure.
-/

/-- One mutating/observable operation on a `Basis2` receiver. -/
inductive Rot2Op where
  | concat (other : Basis2)
  | concat_self (other : Basis2)
  | invert
  | invert_self
deriving Repr

/-- Apply one operation to a `Basis2` receiver; `none` models a fatal
matrix-inversion failure inside `invert`/`invert_self`. -/
def Rot2Op.apply (b : Basis2) : Rot2Op → Option Basis2
  | .concat other => some (b.concat other)
  | .concat_self other => some (b.concat_self other)
  | .invert => b.invert
  | .invert_self => b.invert_self

/-- Run a finite sequence of operations on a `Basis2` receiver. -/
def runRot2 (b : Basis2) : List Rot2Op → Option Basis2
  | [] => some b
  | op :: ops =>
    match Rot2Op.apply b op with
    | none => none
    | some b2 => runRot2 b2 ops

/-- One mutating/observable operation on a `Basis3` receiver. -/
inductive Rot3Op where
  | concat (other : Basis3)
  | concat_self (other : Basis3)
  | invert
  | invert_self
deriving Repr

/-- Apply one operation to a `Basis3` receiver; `none` models a fatal
matrix-inversion failure inside `invert`/`invert_self`. -/
def Rot3Op.apply (b : Basis3) : Rot3Op → Option Basis3
  | .concat other => some (b.concat other)
  | .concat_self other => some (b.concat_self other)
  | .invert => b.invert
  | .invert_self => b.invert_self

/-- Run a finite sequence of operations on a `Basis3` receiver. -/
def runRot3 (b : Basis3) : List Rot3Op → Option Basis3
  | [] => some b
  | op :: ops =>
    match Rot3Op.apply b op with
    | none => none
    | some b2 => runRot3 b2 ops

/-- The representation invariant of the matrix-backed rotations, 2×2 case:
the transpose is a (left) inverse and the determinant is `+1`. -/
def isOrtho2 (m : Mat2) : Prop :=
  m.transpose.mul_m m = Mat2.identity ∧ m.determinant = 1

/-- The representation invariant of the matrix-backed rotations, 3×3 case:
the transpose is a (left) inverse and the determinant is `+1`. -/
def isOrtho3 (m : Mat3) : Prop :=
  m.transpose.mul_m m = Mat3.identity ∧ m.determinant = 1

instance (m : Mat2) : Decidable (isOrtho2 m) := by unfold isOrtho2; infer_instance

instance (m : Mat3) : Decidable (isOrtho3 m) := by unfold isOrtho3; infer_instance

/-- An operation's non-receiver argument satisfies the invariant. -/
def Rot2Op.Ok : Rot2Op → Prop
  | .concat other => isOrtho2 other.mat
  | .concat_self other => isOrtho2 other.mat
  | .invert => True
  | .invert_self => True

/-- An operation's non-receiver argument satisfies the invariant. -/
def Rot3Op.Ok : Rot3Op → Prop
  | .concat other => isOrtho3 other.mat
  | .concat_self other => isOrtho3 other.mat
  | .invert => True
  | .invert_self => True

/-!
The HSV→RGB conversion (`src/color/hsv.rs`, lines 47–77).  The channel types
`T` and `U` are both embedded as `ℚ`; the final `rgb.to_rgb::<U>()` channel
conversion is then the identity.
-/

/-- Source `HSV<T>` (`src/color/hsv.rs`, line 26). -/
structure HSV where
  h : ℚ
  s : ℚ
  v : ℚ
deriving DecidableEq, Repr

/-- Source `RGB<T>` from the color module (an r/g/b channel triple). -/
structure RGB where
  r : ℚ
  g : ℚ
  b : ℚ
deriving DecidableEq, Repr

/-- Truncation toward zero, the rounding Rust's float remainder uses. -/
def rtrunc (q : ℚ) : ℤ := if 0 ≤ q then ⌊q⌋ else ⌈q⌉

/-- Rust's `%` on floats: the remainder of truncated division, embedded
exactly on `ℚ`. -/
def fmod (a b : ℚ) : ℚ := a - b * (rtrunc (a / b) : ℚ)

/-- Source `ToRGB::to_rgb` for `HSV` (`src/color/hsv.rs`, lines 48–76):
chroma `chr = v*s`, sector index `h = self.h / 60`, second-largest component
`x = chr * (1 - |h % 2 - 1|)`, a six-way `cond!` on the sector placing
`chr`/`x`/`0`, a zero fallthrough, then the offset `mn = v - chr` added to
every component. -/
def HSV.to_rgb (c : HSV) : RGB :=
  let chr := c.v * c.s
  let h := c.h / 60
  let x := chr * (1 - |fmod h 2 - 1|)
  let rgb :=
    if h < 1 then RGB.mk chr x 0
    else if h < 2 then RGB.mk x chr 0
    else if h < 3 then RGB.mk 0 chr x
    else if h < 4 then RGB.mk 0 x chr
    else if h < 5 then RGB.mk x 0 chr
    else if h < 6 then RGB.mk chr 0 x
    else RGB.mk 0 0 0
  let mn := c.v - chr
  ⟨rgb.r + mn, rgb.g + mn, rgb.b + mn⟩

/-! ### Matrix algebra lemmas, 2×2 -/

theorem Mat2.mul_m_assoc2 (a b c : Mat2) : (a.mul_m b).mul_m c = a.mul_m (b.mul_m c) := by
  obtain ⟨⟨a1, a2⟩, a3, a4⟩ := a
  obtain ⟨⟨b1, b2⟩, b3, b4⟩ := b
  obtain ⟨⟨c1, c2⟩, c3, c4⟩ := c
  simp only [Mat2.mul_m, Mat2.mul_v, Mat2.mk.injEq, Vec2.mk.injEq]
  and_intros <;> ring

theorem Mat2.transpose_mul2 (a b : Mat2) :
    (a.mul_m b).transpose = b.transpose.mul_m a.transpose := by
  obtain ⟨⟨a1, a2⟩, a3, a4⟩ := a
  obtain ⟨⟨b1, b2⟩, b3, b4⟩ := b
  simp only [Mat2.mul_m, Mat2.mul_v, Mat2.transpose, Mat2.mk.injEq, Vec2.mk.injEq]
  and_intros <;> ring

theorem Mat2.transpose_transpose2 (m : Mat2) : m.transpose.transpose = m := rfl

theorem Mat2.identity_mul2 (m : Mat2) : Mat2.identity.mul_m m = m := by
  obtain ⟨⟨m1, m2⟩, m3, m4⟩ := m
  simp only [Mat2.mul_m, Mat2.mul_v, Mat2.identity, Mat2.mk.injEq, Vec2.mk.injEq]
  and_intros <;> ring

theorem Mat2.mul_identity2 (m : Mat2) : m.mul_m Mat2.identity = m := by
  obtain ⟨⟨m1, m2⟩, m3, m4⟩ := m
  simp only [Mat2.mul_m, Mat2.mul_v, Mat2.identity, Mat2.mk.injEq, Vec2.mk.injEq]
  and_intros <;> ring

theorem Mat2.det_mul2 (a b : Mat2) :
    (a.mul_m b).determinant = a.determinant * b.determinant := by
  obtain ⟨⟨a1, a2⟩, a3, a4⟩ := a
  obtain ⟨⟨b1, b2⟩, b3, b4⟩ := b
  simp only [Mat2.mul_m, Mat2.mul_v, Mat2.determinant]
  ring

theorem Mat2.det_transpose2 (m : Mat2) : m.transpose.determinant = m.determinant := by
  obtain ⟨⟨m1, m2⟩, m3, m4⟩ := m
  simp only [Mat2.transpose, Mat2.determinant]
  ring

theorem Mat2.invert_of_det_ne_zero2 (m : Mat2) (h : m.determinant ≠ 0) :
    m.invert = some ⟨⟨m.y.y / m.determinant, -m.x.y / m.determinant⟩,
                     ⟨-m.y.x / m.determinant, m.x.x / m.determinant⟩⟩ := by
  simp [Mat2.invert, h]

theorem Mat2.invert_eq_none2 (m : Mat2) (h : m.determinant = 0) : m.invert = none := by
  simp [Mat2.invert, h]

theorem Mat2.mul_invert2 (m i : Mat2) (h : m.invert = some i) :
    m.mul_m i = Mat2.identity ∧ i.mul_m m = Mat2.identity := by
  by_cases hd : m.determinant = 0
  · rw [Mat2.invert_eq_none2 m hd] at h; exact absurd h (by simp)
  · rw [Mat2.invert_of_det_ne_zero2 m hd] at h
    obtain ⟨rfl⟩ : i = _ := (Option.some.injEq _ _ ▸ h).symm
    obtain ⟨⟨m1, m2⟩, m3, m4⟩ := m
    simp only [Mat2.determinant] at hd ⊢
    simp only [Mat2.mul_m, Mat2.mul_v, Mat2.identity, Mat2.mk.injEq, Vec2.mk.injEq]
    and_intros <;> field_simp <;> ring

theorem Mat2.invert_of_ortho2 (m : Mat2) (h : isOrtho2 m) :
    m.invert = some m.transpose := by
  have hd : m.determinant ≠ 0 := by rw [h.2]; norm_num
  obtain ⟨i, hi⟩ : ∃ i, m.invert = some i :=
    ⟨_, Mat2.invert_of_det_ne_zero2 m hd⟩
  have hmul := Mat2.mul_invert2 m i hi
  have hti : m.transpose = i := by
    calc m.transpose = m.transpose.mul_m (m.mul_m i) := by
          rw [hmul.1, Mat2.mul_identity2]
    _ = (m.transpose.mul_m m).mul_m i := (Mat2.mul_m_assoc2 _ _ _).symm
    _ = i := by rw [h.1, Mat2.identity_mul2]
  rw [hi, hti]

theorem Mat2.ortho_mul_transpose2 (m : Mat2) (h : isOrtho2 m) :
    m.mul_m m.transpose = Mat2.identity :=
  (Mat2.mul_invert2 m m.transpose (Mat2.invert_of_ortho2 m h)).1

theorem isOrtho2_identity : isOrtho2 Mat2.identity := by
  unfold isOrtho2
  norm_num [Mat2.transpose, Mat2.mul_m, Mat2.mul_v, Mat2.identity, Mat2.determinant,
    Mat2.mk.injEq, Vec2.mk.injEq]

theorem isOrtho2_mul (m n : Mat2) (hm : isOrtho2 m) (hn : isOrtho2 n) :
    isOrtho2 (m.mul_m n) := by
  constructor
  · calc (m.mul_m n).transpose.mul_m (m.mul_m n)
        = (n.transpose.mul_m m.transpose).mul_m (m.mul_m n) := by
          rw [Mat2.transpose_mul2]
    _ = n.transpose.mul_m ((m.transpose.mul_m m).mul_m n) := by
          rw [Mat2.mul_m_assoc2, Mat2.mul_m_assoc2]
    _ = n.transpose.mul_m n := by rw [hm.1, Mat2.identity_mul2]
    _ = Mat2.identity := hn.1
  · rw [Mat2.det_mul2, hm.2, hn.2]; norm_num

theorem isOrtho2_transpose (m : Mat2) (h : isOrtho2 m) : isOrtho2 m.transpose :=
  ⟨by rw [Mat2.transpose_transpose2]; exact Mat2.ortho_mul_transpose2 m h,
   by rw [Mat2.det_transpose2]; exact h.2⟩

/-! ### Matrix algebra lemmas, 3×3 -/

theorem Mat3.mul_m_assoc3 (a b c : Mat3) : (a.mul_m b).mul_m c = a.mul_m (b.mul_m c) := by
  obtain ⟨⟨a1, a2, a3⟩, ⟨a4, a5, a6⟩, a7, a8, a9⟩ := a
  obtain ⟨⟨b1, b2, b3⟩, ⟨b4, b5, b6⟩, b7, b8, b9⟩ := b
  obtain ⟨⟨c1, c2, c3⟩, ⟨c4, c5, c6⟩, c7, c8, c9⟩ := c
  simp only [Mat3.mul_m, Mat3.mul_v, Mat3.mk.injEq, Vec3.mk.injEq]
  and_intros <;> ring

theorem Mat3.transpose_mul3 (a b : Mat3) :
    (a.mul_m b).transpose = b.transpose.mul_m a.transpose := by
  obtain ⟨⟨a1, a2, a3⟩, ⟨a4, a5, a6⟩, a7, a8, a9⟩ := a
  obtain ⟨⟨b1, b2, b3⟩, ⟨b4, b5, b6⟩, b7, b8, b9⟩ := b
  simp only [Mat3.mul_m, Mat3.mul_v, Mat3.transpose, Mat3.mk.injEq, Vec3.mk.injEq]
  and_intros <;> ring

theorem Mat3.transpose_transpose3 (m : Mat3) : m.transpose.transpose = m := rfl

theorem Mat3.identity_mul3 (m : Mat3) : Mat3.identity.mul_m m = m := by
  obtain ⟨⟨m1, m2, m3⟩, ⟨m4, m5, m6⟩, m7, m8, m9⟩ := m
  simp only [Mat3.mul_m, Mat3.mul_v, Mat3.identity, Mat3.mk.injEq, Vec3.mk.injEq]
  and_intros <;> ring

theorem Mat3.mul_identity3 (m : Mat3) : m.mul_m Mat3.identity = m := by
  obtain ⟨⟨m1, m2, m3⟩, ⟨m4, m5, m6⟩, m7, m8, m9⟩ := m
  simp only [Mat3.mul_m, Mat3.mul_v, Mat3.identity, Mat3.mk.injEq, Vec3.mk.injEq]
  and_intros <;> ring

theorem Mat3.det_mul3 (a b : Mat3) :
    (a.mul_m b).determinant = a.determinant * b.determinant := by
  obtain ⟨⟨a1, a2, a3⟩, ⟨a4, a5, a6⟩, a7, a8, a9⟩ := a
  obtain ⟨⟨b1, b2, b3⟩, ⟨b4, b5, b6⟩, b7, b8, b9⟩ := b
  simp only [Mat3.mul_m, Mat3.mul_v, Mat3.determinant, Vec3.dot, Vec3.cross]
  ring

theorem Mat3.det_transpose3 (m : Mat3) : m.transpose.determinant = m.determinant := by
  obtain ⟨⟨m1, m2, m3⟩, ⟨m4, m5, m6⟩, m7, m8, m9⟩ := m
  simp only [Mat3.transpose, Mat3.determinant, Vec3.dot, Vec3.cross]
  ring

theorem Mat3.invert_of_det_ne_zero3 (m : Mat3) (h : m.determinant ≠ 0) :
    m.invert = some (Mat3.transpose ⟨(m.y.cross m.z).mul_s (1 / m.determinant),
                                     (m.z.cross m.x).mul_s (1 / m.determinant),
                                     (m.x.cross m.y).mul_s (1 / m.determinant)⟩) := by
  simp [Mat3.invert, h]

theorem Mat3.invert_eq_none3 (m : Mat3) (h : m.determinant = 0) : m.invert = none := by
  simp [Mat3.invert, h]

theorem Mat3.mul_invert3 (m i : Mat3) (h : m.invert = some i) :
    m.mul_m i = Mat3.identity ∧ i.mul_m m = Mat3.identity := by
  by_cases hd : m.determinant = 0
  · rw [Mat3.invert_eq_none3 m hd] at h; exact absurd h (by simp)
  · rw [Mat3.invert_of_det_ne_zero3 m hd] at h
    obtain ⟨rfl⟩ : i = _ := (Option.some.injEq _ _ ▸ h).symm
    obtain ⟨⟨m1, m2, m3⟩, ⟨m4, m5, m6⟩, m7, m8, m9⟩ := m
    simp only [Mat3.determinant, Vec3.dot, Vec3.cross] at hd ⊢
    simp only [Mat3.mul_m, Mat3.mul_v, Mat3.transpose, Mat3.identity, Vec3.mul_s,
      Vec3.cross, Mat3.mk.injEq, Vec3.mk.injEq]
    and_intros <;> field_simp <;> ring

theorem Mat3.invert_of_ortho3 (m : Mat3) (h : isOrtho3 m) :
    m.invert = some m.transpose := by
  have hd : m.determinant ≠ 0 := by rw [h.2]; norm_num
  obtain ⟨i, hi⟩ : ∃ i, m.invert = some i :=
    ⟨_, Mat3.invert_of_det_ne_zero3 m hd⟩
  have hmul := Mat3.mul_invert3 m i hi
  have hti : m.transpose = i := by
    calc m.transpose = m.transpose.mul_m (m.mul_m i) := by
          rw [hmul.1, Mat3.mul_identity3]
    _ = (m.transpose.mul_m m).mul_m i := (Mat3.mul_m_assoc3 _ _ _).symm
    _ = i := by rw [h.1, Mat3.identity_mul3]
  rw [hi, hti]

theorem Mat3.ortho_mul_transpose3 (m : Mat3) (h : isOrtho3 m) :
    m.mul_m m.transpose = Mat3.identity :=
  (Mat3.mul_invert3 m m.transpose (Mat3.invert_of_ortho3 m h)).1

theorem isOrtho3_identity : isOrtho3 Mat3.identity := by
  unfold isOrtho3
  norm_num [Mat3.transpose, Mat3.mul_m, Mat3.mul_v, Mat3.identity, Mat3.determinant,
    Vec3.dot, Vec3.cross, Mat3.mk.injEq, Vec3.mk.injEq]

theorem isOrtho3_mul (m n : Mat3) (hm : isOrtho3 m) (hn : isOrtho3 n) :
    isOrtho3 (m.mul_m n) := by
  constructor
  · calc (m.mul_m n).transpose.mul_m (m.mul_m n)
        = (n.transpose.mul_m m.transpose).mul_m (m.mul_m n) := by
          rw [Mat3.transpose_mul3]
    _ = n.transpose.mul_m ((m.transpose.mul_m m).mul_m n) := by
          rw [Mat3.mul_m_assoc3, Mat3.mul_m_assoc3]
    _ = n.transpose.mul_m n := by rw [hm.1, Mat3.identity_mul3]
    _ = Mat3.identity := hn.1
  · rw [Mat3.det_mul3, hm.2, hn.2]; norm_num

theorem isOrtho3_transpose (m : Mat3) (h : isOrtho3 m) : isOrtho3 m.transpose :=
  ⟨by rw [Mat3.transpose_transpose3]; exact Mat3.ortho_mul_transpose3 m h,
   by rw [Mat3.det_transpose3]; exact h.2⟩

/-! ### Preservation of the orthogonality invariant along call sequences -/

theorem Rot2Op.apply_preserves2 (b : Basis2) (op : Rot2Op) (hb : isOrtho2 b.mat)
    (hop : op.Ok) : ∃ b2, op.apply b = some b2 ∧ isOrtho2 b2.mat := by
  cases op with
  | concat other => exact ⟨_, rfl, isOrtho2_mul _ _ hb hop⟩
  | concat_self other => exact ⟨_, rfl, isOrtho2_mul _ _ hb hop⟩
  | invert =>
    refine ⟨⟨b.mat.transpose⟩, ?_, isOrtho2_transpose _ hb⟩
    simp [Rot2Op.apply, Basis2.invert, Mat2.invert_of_ortho2 b.mat hb]
  | invert_self =>
    refine ⟨⟨b.mat.transpose⟩, ?_, isOrtho2_transpose _ hb⟩
    simp [Rot2Op.apply, Basis2.invert_self, Mat2.invert_self,
      Mat2.invert_of_ortho2 b.mat hb]

theorem runRot2_preserves (ops : List Rot2Op) (b : Basis2) (hb : isOrtho2 b.mat)
    (hops : ∀ op ∈ ops, op.Ok) :
    ∃ b2, runRot2 b ops = some b2 ∧ isOrtho2 b2.mat := by
  induction ops generalizing b with
  | nil => exact ⟨b, rfl, hb⟩
  | cons op ops ih =>
    obtain ⟨b2, hb2, ho2⟩ := Rot2Op.apply_preserves2 b op hb (hops op (by simp))
    obtain ⟨b3, hb3, ho3⟩ := ih b2 ho2 (fun o ho => hops o (by simp [ho]))
    exact ⟨b3, by simp [runRot2, hb2, hb3], ho3⟩

theorem Rot3Op.apply_preserves3 (b : Basis3) (op : Rot3Op) (hb : isOrtho3 b.mat)
    (hop : op.Ok) : ∃ b2, op.apply b = some b2 ∧ isOrtho3 b2.mat := by
  cases op with
  | concat other => exact ⟨_, rfl, isOrtho3_mul _ _ hb hop⟩
  | concat_self other => exact ⟨_, rfl, isOrtho3_mul _ _ hb hop⟩
  | invert =>
    refine ⟨⟨b.mat.transpose⟩, ?_, isOrtho3_transpose _ hb⟩
    simp [Rot3Op.apply, Basis3.invert, Mat3.invert_of_ortho3 b.mat hb]
  | invert_self =>
    refine ⟨⟨b.mat.transpose⟩, ?_, isOrtho3_transpose _ hb⟩
    simp [Rot3Op.apply, Basis3.invert_self, Mat3.invert_self,
      Mat3.invert_of_ortho3 b.mat hb]

theorem runRot3_preserves (ops : List Rot3Op) (b : Basis3) (hb : isOrtho3 b.mat)
    (hops : ∀ op ∈ ops, op.Ok) :
    ∃ b2, runRot3 b ops = some b2 ∧ isOrtho3 b2.mat := by
  induction ops generalizing b with
  | nil => exact ⟨b, rfl, hb⟩
  | cons op ops ih =>
    obtain ⟨b2, hb2, ho2⟩ := Rot3Op.apply_preserves3 b op hb (hops op (by simp))
    obtain ⟨b3, hb3, ho3⟩ := ih b2 ho2 (fun o ho => hops o (by simp [ho]))
    exact ⟨b3, by simp [runRot3, hb2, hb3], ho3⟩

/-- C1: for `Basis2` and `Basis3`, starting from any value whose wrapped
matrix is orthogonal (determinant `+1`) — in particular from `identity` —
after any finite sequence of `concat`, `invert`, `concat_self`, `invert_self`
calls whose other arguments also satisfy the invariant, the run completes
without a fatal inversion failure and the resulting wrapped matrix is still
orthogonal: its transpose equals the value returned by the matrix library's
general inverse. -/
theorem claim_C1_orthogonality_invariant :
    (∀ (b : Basis2) (ops : List Rot2Op), isOrtho2 b.mat → (∀ op ∈ ops, op.Ok) →
      ∃ b2, runRot2 b ops = some b2 ∧ isOrtho2 b2.mat ∧
        b2.mat.invert = some b2.mat.transpose) ∧
    (∀ (b : Basis3) (ops : List Rot3Op), isOrtho3 b.mat → (∀ op ∈ ops, op.Ok) →
      ∃ b2, runRot3 b ops = some b2 ∧ isOrtho3 b2.mat ∧
        b2.mat.invert = some b2.mat.transpose) := by
  constructor
  · intro b ops hb hops
    obtain ⟨b2, hrun, ho⟩ := runRot2_preserves ops b hb hops
    exact ⟨b2, hrun, ho, Mat2.invert_of_ortho2 b2.mat ho⟩
  · intro b ops hb hops
    obtain ⟨b2, hrun, ho⟩ := runRot3_preserves ops b hb hops
    exact ⟨b2, hrun, ho, Mat3.invert_of_ortho3 b2.mat ho⟩

/-- Witness for C1: a concrete run from `identity` through a `concat`, an
`invert_self` and an `invert` completes and preserves the invariant. -/
theorem claim_C1_orthogonality_invariant_witness :
    (∃ b2, runRot2 Basis2.identity
        [Rot2Op.concat Basis2.identity, Rot2Op.invert_self, Rot2Op.invert] = some b2 ∧
      isOrtho2 b2.mat ∧ b2.mat.invert = some b2.mat.transpose) ∧
    (∃ b2, runRot3 Basis3.identity
        [Rot3Op.concat Basis3.identity, Rot3Op.invert_self, Rot3Op.invert] = some b2 ∧
      isOrtho3 b2.mat ∧ b2.mat.invert = some b2.mat.transpose) :=
  ⟨claim_C1_orthogonality_invariant.1 Basis2.identity _ isOrtho2_identity
    (by intro op hop
        rcases hop with _ | ⟨_, _ | ⟨_, _ | _⟩⟩ <;> first | exact isOrtho2_identity | trivial),
   claim_C1_orthogonality_invariant.2 Basis3.identity _ isOrtho3_identity
    (by intro op hop
        rcases hop with _ | ⟨_, _ | ⟨_, _ | _⟩⟩ <;> first | exact isOrtho3_identity | trivial)⟩

/-- C2: for every representation and every value satisfying its
representation invariant (orthogonal matrix / unit-norm quaternion),
`concat(r, invert(r))` equals `identity()` (exactly, in this exact-arithmetic
embedding; hence within any tolerance). -/
theorem claim_C2_inverse_law :
    (∀ b : Basis2, isOrtho2 b.mat →
      ∃ bi, b.invert = some bi ∧ b.concat bi = Basis2.identity) ∧
    (∀ b : Basis3, isOrtho3 b.mat →
      ∃ bi, b.invert = some bi ∧ b.concat bi = Basis3.identity) ∧
    (∀ q : Quat, q.magnitude2 = 1 →
      QuatRot.concat q (QuatRot.invert q) = QuatRot.identity) := by
  refine ⟨?_, ?_, ?_⟩
  · intro b hb
    refine ⟨⟨b.mat.transpose⟩, ?_, ?_⟩
    · simp [Basis2.invert, Mat2.invert_of_ortho2 b.mat hb]
    · simp [Basis2.concat, Basis2.identity, Mat2.ortho_mul_transpose2 b.mat hb]
  · intro b hb
    refine ⟨⟨b.mat.transpose⟩, ?_, ?_⟩
    · simp [Basis3.invert, Mat3.invert_of_ortho3 b.mat hb]
    · simp [Basis3.concat, Basis3.identity, Mat3.ortho_mul_transpose3 b.mat hb]
  · intro q hq
    obtain ⟨s, x, y, z⟩ := q
    simp only [Quat.magnitude2, Vec3.dot] at hq
    simp only [QuatRot.concat, QuatRot.invert, QuatRot.identity, Quat.identity,
      Quat.mul_q, Quat.conjugate, Quat.div_s, Quat.magnitude2, Vec3.dot, Vec3.cross,
      Vec3.add_v, Vec3.mul_s, Quat.mk.injEq, Vec3.mk.injEq]
    rw [hq]
    and_intros <;> field_simp <;> linarith

/-- Witness for C2: the inverse law at a concrete nontrivial rotation in each
representation (a 3-4-5 rotation matrix in 2D and 3D, a 3-4-5 unit
quaternion). -/
theorem claim_C2_inverse_law_witness :
    (∃ bi, (Basis2.mk ⟨⟨3/5, 4/5⟩, ⟨-4/5, 3/5⟩⟩).invert = some bi ∧
      (Basis2.mk ⟨⟨3/5, 4/5⟩, ⟨-4/5, 3/5⟩⟩).concat bi = Basis2.identity) ∧
    (∃ bi, (Basis3.mk ⟨⟨3/5, 4/5, 0⟩, ⟨-4/5, 3/5, 0⟩, ⟨0, 0, 1⟩⟩).invert = some bi ∧
      (Basis3.mk ⟨⟨3/5, 4/5, 0⟩, ⟨-4/5, 3/5, 0⟩, ⟨0, 0, 1⟩⟩).concat bi = Basis3.identity) ∧
    QuatRot.concat ⟨3/5, ⟨4/5, 0, 0⟩⟩ (QuatRot.invert ⟨3/5, ⟨4/5, 0, 0⟩⟩) = QuatRot.identity :=
  ⟨claim_C2_inverse_law.1 _ (by
      unfold isOrtho2
      norm_num [Mat2.transpose, Mat2.mul_m, Mat2.mul_v, Mat2.identity, Mat2.determinant,
        Mat2.mk.injEq, Vec2.mk.injEq]),
   claim_C2_inverse_law.2.1 _ (by
      unfold isOrtho3
      norm_num [Mat3.transpose, Mat3.mul_m, Mat3.mul_v, Mat3.identity, Mat3.determinant,
        Vec3.dot, Vec3.cross, Mat3.mk.injEq, Vec3.mk.injEq]),
   claim_C2_inverse_law.2.2 _ (by norm_num [Quat.magnitude2, Vec3.dot])⟩

/-- C3: for every representation, `rotate_vec(identity(), v) == v` for every
vector `v`, and `concat(r, identity()) == r == concat(identity(), r)` for
every rotation value `r`. -/
theorem claim_C3_identity_law :
    ((∀ v, Basis2.identity.rotate_vec v = v) ∧
      ∀ r : Basis2, r.concat Basis2.identity = r ∧ Basis2.identity.concat r = r) ∧
    ((∀ v, Basis3.identity.rotate_vec v = v) ∧
      ∀ r : Basis3, r.concat Basis3.identity = r ∧ Basis3.identity.concat r = r) ∧
    ((∀ v, QuatRot.rotate_vec QuatRot.identity v = v) ∧
      ∀ r : Quat, QuatRot.concat r QuatRot.identity = r ∧
        QuatRot.concat QuatRot.identity r = r) := by
  refine ⟨⟨?_, ?_⟩, ⟨?_, ?_⟩, ?_, ?_⟩
  · intro v
    obtain ⟨v1, v2⟩ := v
    simp only [Basis2.rotate_vec, Basis2.identity, Mat2.identity, Mat2.mul_v,
      Vec2.mk.injEq]
    and_intros <;> ring
  · intro r
    exact ⟨by simp [Basis2.concat, Basis2.identity, Mat2.mul_identity2],
           by simp [Basis2.concat, Basis2.identity, Mat2.identity_mul2]⟩
  · intro v
    obtain ⟨v1, v2, v3⟩ := v
    simp only [Basis3.rotate_vec, Basis3.identity, Mat3.identity, Mat3.mul_v,
      Vec3.mk.injEq]
    and_intros <;> ring
  · intro r
    exact ⟨by simp [Basis3.concat, Basis3.identity, Mat3.mul_identity3],
           by simp [Basis3.concat, Basis3.identity, Mat3.identity_mul3]⟩
  · intro v
    obtain ⟨v1, v2, v3⟩ := v
    simp only [QuatRot.rotate_vec, QuatRot.identity, Quat.identity, Quat.mul_v,
      Quat.mul_q, Quat.conjugate, Vec3.dot, Vec3.cross, Vec3.add_v, Vec3.mul_s,
      Vec3.mk.injEq]
    and_intros <;> ring
  · intro r
    obtain ⟨s, x, y, z⟩ := r
    constructor <;>
      · simp only [QuatRot.concat, QuatRot.identity, Quat.identity, Quat.mul_q,
          Vec3.dot, Vec3.cross, Vec3.add_v, Vec3.mul_s, Quat.mk.injEq, Vec3.mk.injEq]
        and_intros <;> ring

/-- C4: for every representation and every point, `rotate_point` — the single
derived trait default, instantiated (not overridden) by `Basis2`, `Basis3`
and `Quat` alike — returns the point reconstructed via `Point::from_vec` from
`rotate_vec` applied to `point.to_vec()`. -/
theorem claim_C4_rotate_point_default :
    (∀ (b : Basis2) (p : Point2),
      rotate_point2 b.rotate_vec p = Point2.from_vec (b.rotate_vec p.to_vec)) ∧
    (∀ (b : Basis3) (p : Point3),
      rotate_point3 b.rotate_vec p = Point3.from_vec (b.rotate_vec p.to_vec)) ∧
    (∀ (q : Quat) (p : Point3),
      rotate_point3 (QuatRot.rotate_vec q) p =
        Point3.from_vec (QuatRot.rotate_vec q p.to_vec)) :=
  ⟨fun _ _ => rfl, fun _ _ => rfl, fun _ _ => rfl⟩

/-- C5: for every representation and every ray, `rotate_ray` — the derived
trait default — returns a ray whose origin equals the input ray's origin
exactly (every component is copied unchanged) and whose direction is
`rotate_vec` of the input direction. -/
theorem claim_C5_rotate_ray :
    (∀ (b : Basis2) (ray : Ray2),
      (rotate_ray2 b.rotate_vec ray).origin = ray.origin ∧
      (rotate_ray2 b.rotate_vec ray).direction = b.rotate_vec ray.direction) ∧
    (∀ (b : Basis3) (ray : Ray3),
      (rotate_ray3 b.rotate_vec ray).origin = ray.origin ∧
      (rotate_ray3 b.rotate_vec ray).direction = b.rotate_vec ray.direction) ∧
    (∀ (q : Quat) (ray : Ray3),
      (rotate_ray3 (QuatRot.rotate_vec q) ray).origin = ray.origin ∧
      (rotate_ray3 (QuatRot.rotate_vec q) ray).direction =
        QuatRot.rotate_vec q ray.direction) :=
  ⟨fun _ _ => ⟨rfl, rfl⟩, fun _ _ => ⟨rfl, rfl⟩, fun _ _ => ⟨rfl, rfl⟩⟩

/-- C6: for every representation, the in-place variants agree with the pure
ones: `concat_self` produces `concat` of the old receiver value, and
`invert_self` produces `invert` of the old receiver value — including the
`Basis2`/`Basis3` overrides that mutate the wrapped matrix directly through
the matrix library's `mul_self_m`/`invert_self` instead of self-assigning
(for the matrix-backed types the `invert` comparison is of the whole fallible
outcome, a fatal failure on one side being fatal on the other). -/
theorem claim_C6_in_place_agreement :
    (∀ b other : Basis2, b.concat_self other = b.concat other) ∧
    (∀ b : Basis2, b.invert_self = b.invert) ∧
    (∀ b other : Basis3, b.concat_self other = b.concat other) ∧
    (∀ b : Basis3, b.invert_self = b.invert) ∧
    (∀ q other : Quat, QuatRot.concat_self q other = QuatRot.concat q other) ∧
    (∀ q : Quat, QuatRot.invert_self q = QuatRot.invert q) :=
  ⟨fun _ _ => rfl, fun _ => rfl, fun _ _ => rfl, fun _ => rfl,
   fun _ _ => rfl, fun _ => rfl⟩

/-- C7: the quaternion `invert` returns the conjugate divided componentwise
by the squared magnitude; and for every unit-norm quaternion (squared
magnitude 1) it equals the conjugate alone. -/
theorem claim_C7_quat_invert :
    (∀ q : Quat, QuatRot.invert q = q.conjugate.div_s q.magnitude2) ∧
    (∀ q : Quat, q.magnitude2 = 1 → QuatRot.invert q = q.conjugate) := by
  refine ⟨fun _ => rfl, ?_⟩
  intro q hq
  obtain ⟨s, x, y, z⟩ := q
  simp only [QuatRot.invert, Quat.div_s, Quat.conjugate]
  rw [hq]
  simp

/-- Witness for C7: at the unit quaternion `(3/5, 4/5, 0, 0)`, `invert`
equals the conjugate. -/
theorem claim_C7_quat_invert_witness :
    QuatRot.invert ⟨3/5, ⟨4/5, 0, 0⟩⟩ = Quat.conjugate ⟨3/5, ⟨4/5, 0, 0⟩⟩ :=
  claim_C7_quat_invert.2 _ (by norm_num [Quat.magnitude2, Vec3.dot])

/-- C8: `Basis2::invert` and `Basis3::invert` unwrap the matrix library's
fallible general inverse, so EVERY wrapped matrix with no inverse (no
two-sided inverse matrix exists) makes the call fail fatally (modelled by
`none`) rather than return a sentinel; and whenever the wrapped matrix is
orthogonal the failure branch is unreachable — the inverse exists. -/
theorem claim_C8_fatal_invert :
    (∀ b : Basis2,
      ¬(∃ i : Mat2, b.mat.mul_m i = Mat2.identity ∧ i.mul_m b.mat = Mat2.identity) →
      b.invert = none) ∧
    (∀ b : Basis2, isOrtho2 b.mat → (b.invert).isSome) ∧
    (∀ b : Basis3,
      ¬(∃ i : Mat3, b.mat.mul_m i = Mat3.identity ∧ i.mul_m b.mat = Mat3.identity) →
      b.invert = none) ∧
    (∀ b : Basis3, isOrtho3 b.mat → (b.invert).isSome) := by
  refine ⟨?_, ?_, ?_, ?_⟩
  · intro b hno
    by_cases hd : b.mat.determinant = 0
    · simp [Basis2.invert, Mat2.invert_eq_none2 b.mat hd]
    · exact absurd ⟨_, Mat2.mul_invert2 b.mat _ (Mat2.invert_of_det_ne_zero2 b.mat hd)⟩ hno
  · intro b hb
    simp [Basis2.invert, Mat2.invert_of_ortho2 b.mat hb]
  · intro b hno
    by_cases hd : b.mat.determinant = 0
    · simp [Basis3.invert, Mat3.invert_eq_none3 b.mat hd]
    · exact absurd ⟨_, Mat3.mul_invert3 b.mat _ (Mat3.invert_of_det_ne_zero3 b.mat hd)⟩ hno
  · intro b hb
    simp [Basis3.invert, Mat3.invert_of_ortho3 b.mat hb]

/-- Witness for C8: the zero matrices have no inverse and make `invert`
fatal, while at the identity rotations the inverse exists. -/
theorem claim_C8_fatal_invert_witness :
    ((Basis2.mk ⟨⟨0, 0⟩, ⟨0, 0⟩⟩).invert = none) ∧
    (Basis2.identity.invert).isSome ∧
    ((Basis3.mk ⟨⟨0, 0, 0⟩, ⟨0, 0, 0⟩, ⟨0, 0, 0⟩⟩).invert = none) ∧
    (Basis3.identity.invert).isSome :=
  ⟨claim_C8_fatal_invert.1 _ (by
      rintro ⟨i, hi, -⟩
      obtain ⟨⟨i1, i2⟩, i3, i4⟩ := i
      simp only [Mat2.mul_m, Mat2.mul_v, Mat2.identity, Mat2.mk.injEq, Vec2.mk.injEq] at hi
      norm_num at hi),
   claim_C8_fatal_invert.2.1 Basis2.identity isOrtho2_identity,
   claim_C8_fatal_invert.2.2.1 _ (by
      rintro ⟨i, hi, -⟩
      obtain ⟨⟨i1, i2, i3⟩, ⟨i4, i5, i6⟩, i7, i8, i9⟩ := i
      simp only [Mat3.mul_m, Mat3.mul_v, Mat3.identity, Mat3.mk.injEq, Vec3.mk.injEq] at hi
      norm_num at hi),
   claim_C8_fatal_invert.2.2.2 Basis3.identity isOrtho3_identity⟩

/-- C9 (refuted by the code): obtaining the default tolerance through
`Basis2::approx_epsilon` / `Basis3::approx_epsilon` does NOT return a
tolerance value — the source body is `fail!(~"Doesn't work!")`, an
unconditional abort on every invocation, modelled here by `none`. -/
theorem claim_C9_approx_epsilon_aborts :
    Basis2.approx_epsilon = none ∧ Basis3.approx_epsilon = none :=
  ⟨rfl, rfl⟩

/-! ### HSV→RGB helper lemmas -/

theorem fmod_two_bounds (a : ℚ) (ha : 0 ≤ a) : 0 ≤ fmod a 2 ∧ fmod a 2 < 2 := by
  unfold fmod rtrunc
  rw [if_pos (by linarith : (0:ℚ) ≤ a / 2)]
  have h1 := Int.floor_le (a / 2)
  have h2 := Int.lt_floor_add_one (a / 2)
  constructor <;> linarith

theorem max3_eq (p q r top : ℚ) (hp : p ≤ top) (hq : q ≤ top) (hr : r ≤ top)
    (h : p = top ∨ q = top ∨ r = top) : max p (max q r) = top := by
  refine le_antisymm (max_le hp (max_le hq hr)) ?_
  rcases h with h | h | h
  · rw [← h]; exact le_max_left _ _
  · rw [← h]; exact le_trans (le_max_left q r) (le_max_right p _)
  · rw [← h]; exact le_trans (le_max_right q r) (le_max_right p _)

theorem min3_eq (p q r bot : ℚ) (hp : bot ≤ p) (hq : bot ≤ q) (hr : bot ≤ r)
    (h : p = bot ∨ q = bot ∨ r = bot) : min p (min q r) = bot := by
  refine le_antisymm ?_ (le_min hp (le_min hq hr))
  rcases h with h | h | h
  · rw [← h]; exact min_le_left _ _
  · rw [← h]; exact le_trans (min_le_right p _) (min_le_left q r)
  · rw [← h]; exact le_trans (min_le_right p _) (min_le_right q r)

/-- C10: for every HSV value with hue in `[0, 360)` and saturation and value
in `[0, 1]`, the RGB returned by `to_rgb` has maximum component `v` and
minimum component `v - v*s` — each component is the piecewise chroma term
plus the common offset `m = v - v*s`. -/
theorem claim_C10_hsv_to_rgb (c : HSV)
    (hh0 : 0 ≤ c.h) (hh1 : c.h < 360)
    (hs0 : 0 ≤ c.s) (hs1 : c.s ≤ 1)
    (hv0 : 0 ≤ c.v) (hv1 : c.v ≤ 1) :
    max c.to_rgb.r (max c.to_rgb.g c.to_rgb.b) = c.v ∧
    min c.to_rgb.r (min c.to_rgb.g c.to_rgb.b) = c.v - c.v * c.s := by
  have hf := fmod_two_bounds (c.h / 60) (by linarith)
  have habs : |fmod (c.h / 60) 2 - 1| ≤ 1 :=
    abs_le.mpr ⟨by linarith [hf.1], by linarith [hf.2]⟩
  have habs0 : (0:ℚ) ≤ |fmod (c.h / 60) 2 - 1| := abs_nonneg _
  have hchr0 : 0 ≤ c.v * c.s := mul_nonneg hv0 hs0
  have hchrv : c.v * c.s ≤ c.v := by nlinarith
  have hx0 : 0 ≤ c.v * c.s * (1 - |fmod (c.h / 60) 2 - 1|) := by nlinarith
  have hxchr : c.v * c.s * (1 - |fmod (c.h / 60) 2 - 1|) ≤ c.v * c.s := by nlinarith
  have hlt6 : c.h / 60 < 6 := by linarith
  simp only [HSV.to_rgb]
  split_ifs with h1 h2 h3 h4 h5
  · exact ⟨max3_eq _ _ _ _ (by dsimp only; linarith) (by dsimp only; linarith)
        (by dsimp only; linarith) (Or.inl (by dsimp only; ring)),
      min3_eq _ _ _ _ (by dsimp only; linarith) (by dsimp only; linarith)
        (by dsimp only; linarith) (Or.inr (Or.inr (by dsimp only; ring)))⟩
  · exact ⟨max3_eq _ _ _ _ (by dsimp only; linarith) (by dsimp only; linarith)
        (by dsimp only; linarith) (Or.inr (Or.inl (by dsimp only; ring))),
      min3_eq _ _ _ _ (by dsimp only; linarith) (by dsimp only; linarith)
        (by dsimp only; linarith) (Or.inr (Or.inr (by dsimp only; ring)))⟩
  · exact ⟨max3_eq _ _ _ _ (by dsimp only; linarith) (by dsimp only; linarith)
        (by dsimp only; linarith) (Or.inr (Or.inl (by dsimp only; ring))),
      min3_eq _ _ _ _ (by dsimp only; linarith) (by dsimp only; linarith)
        (by dsimp only; linarith) (Or.inl (by dsimp only; ring))⟩
  · exact ⟨max3_eq _ _ _ _ (by dsimp only; linarith) (by dsimp only; linarith)
        (by dsimp only; linarith) (Or.inr (Or.inr (by dsimp only; ring))),
      min3_eq _ _ _ _ (by dsimp only; linarith) (by dsimp only; linarith)
        (by dsimp only; linarith) (Or.inl (by dsimp only; ring))⟩
  · exact ⟨max3_eq _ _ _ _ (by dsimp only; linarith) (by dsimp only; linarith)
        (by dsimp only; linarith) (Or.inr (Or.inr (by dsimp only; ring))),
      min3_eq _ _ _ _ (by dsimp only; linarith) (by dsimp only; linarith)
        (by dsimp only; linarith) (Or.inr (Or.inl (by dsimp only; ring)))⟩
  · exact ⟨max3_eq _ _ _ _ (by dsimp only; linarith) (by dsimp only; linarith)
        (by dsimp only; linarith) (Or.inl (by dsimp only; ring)),
      min3_eq _ _ _ _ (by dsimp only; linarith) (by dsimp only; linarith)
        (by dsimp only; linarith) (Or.inr (Or.inl (by dsimp only; ring)))⟩

/-- Witness for C10: at the concrete HSV value `(90, 1/2, 1/2)` the maximum
RGB component is `1/2` and the minimum is `1/4`. -/
theorem claim_C10_hsv_to_rgb_witness :
    max (HSV.mk 90 (1/2) (1/2)).to_rgb.r
      (max (HSV.mk 90 (1/2) (1/2)).to_rgb.g (HSV.mk 90 (1/2) (1/2)).to_rgb.b) = 1/2 ∧
    min (HSV.mk 90 (1/2) (1/2)).to_rgb.r
      (min (HSV.mk 90 (1/2) (1/2)).to_rgb.g (HSV.mk 90 (1/2) (1/2)).to_rgb.b)
      = 1/2 - 1/2 * (1/2) :=
  claim_C10_hsv_to_rgb ⟨90, 1/2, 1/2⟩ (by norm_num) (by norm_num) (by norm_num)
    (by norm_num) (by norm_num) (by norm_num)

end Cgmath

